import Mathlib

/-!
Verification of the work-hours reporting pipeline.

This file gives a shallow embedding, in Lean 4, of the parts of the
repository relevant to the reconciliation pipeline and proves properties
about them:

* `src/application/services/worked_hours_calculator.py`
  (`CommitCluster`, `WorkedHoursCalculator.calculate_clusters`,
  `WorkedHoursCalculator._merge_close_clusters`, `__init__`);
* `src/application/services/github_commit_tracker.py`
  (`_process_commits_to_clusters`, `_create_or_update_cluster_entry`);
* `src/domain/services/matching_service.py`
  (`MatchingPattern.extract`, `MatchingService.extract_work_item_ids`,
  `MatchingService.match_time_entries_to_work_items`,
  `MatchingService._fuzzy_match_work_item`);
* `src/domain/entities/time_entry.py` (`TimeEntry.set_extracted_work_items`)
  and `src/domain/entities/work_item.py` (`WorkItem.is_completed`).

Conventions of the embedding:

* Timestamps are rationals counting seconds (the Python code uses
  timezone-aware datetimes; a timezone conversion does not change the
  instant, so gaps and durations are unaffected and the wall-clock
  offset is considered baked into the value).
* Float arithmetic is modelled by exact rational arithmetic.  The single
  transcendental comparison of the clustering algorithm,
  `np.exp(-gap/tau) < threshold`, is abstracted as a boolean decision
  function `b : ℚ → Bool` together with the predicate `boundaryMatches`
  stating that `b` agrees with the real-number formula
  `Real.exp (-(gap / tau)) < threshold` on every gap.
* Python dictionaries appear as association lists in insertion order,
  Python sets of strings as `Finset String`, and sets of extracted ids as
  duplicate-free lists in first-insertion order.
-/

namespace WorkReports

/-- A commit record, as handed to `WorkedHoursCalculator.calculate_clusters`
(keys `sha`, `author`, `repo`, `timestamp`, `message`); `ts` is the commit
timestamp in seconds. -/
structure Commit where
  sha : String
  author : String
  repo : String
  ts : ℚ
  message : String
deriving DecidableEq, Repr

/-- `CommitCluster` from `worked_hours_calculator.py`: a work session. -/
structure CommitCluster where
  author : String
  repo : String
  start : ℚ
  «end» : ℚ
  commits : List Commit
  duration_hours : ℚ
deriving DecidableEq, Repr

/-- `CommitCluster.commit_count`. -/
def CommitCluster.commitCount (c : CommitCluster) : ℕ := c.commits.length

/-- Zero-padded two-digit rendering of a number, as Python's `%H` / `%M`. -/
def pad2 (n : ℕ) : String := if n < 10 then "0" ++ toString n else toString n

/-- `%H:%M` formatting of a timestamp given in seconds. -/
def fmtHM (t : ℚ) : String :=
  pad2 ((⌊t / 3600⌋.emod 24).toNat) ++ ":" ++ pad2 ((⌊t / 60⌋.emod 60).toNat)

/-- `CommitCluster.description`:
`f"{self.repo}: {self.commit_count} commits ({self.start:%H:%M}–{self.end:%H:%M})"`. -/
def CommitCluster.description (c : CommitCluster) : String :=
  c.repo ++ ": " ++ toString c.commitCount ++ " commits (" ++
    fmtHM c.start ++ "–" ++ fmtHM c.«end» ++ ")"

/-- The attributes (dataclass fields and properties) exposed by the
`CommitCluster` class in `worked_hours_calculator.py`. -/
def commitClusterAttrs : List String :=
  ["author", "repo", "start", "end", "commits", "duration_hours",
   "commit_count", "description"]

/-- String-valued attribute lookup on a `CommitCluster` object, modelling
Python attribute access: `author`, `repo` and `description` are the only
string-valued attributes; any other name yields no value (an
`AttributeError` at runtime). -/
def clusterStringAttr (c : CommitCluster) : String → Option String
  | "author" => some c.author
  | "repo" => some c.repo
  | "description" => some c.description
  | _ => none

/-- The attribute name `_create_or_update_cluster_entry` in
`github_commit_tracker.py` reads to fill the `description` field of the
external record (`description=cluster.detailed_description`). -/
def trackerDescriptionAttr : String := "detailed_description"

/-- The description value the tracker actually obtains for a cluster:
the lookup of `detailed_description` on the `CommitCluster` object. -/
def trackerEntryDescription (c : CommitCluster) : Option String :=
  clusterStringAttr c trackerDescriptionAttr

/-- Configuration stored by `WorkedHoursCalculator.__init__`. -/
structure CalcConfig where
  tauHours : ℚ
  clusterThreshold : ℚ
  maxSessionHours : ℚ
  minClusterGapMinutes : ℤ
deriving DecidableEq, Repr

/-- The default configuration of `WorkedHoursCalculator`
(`tau_hours=2.5`, `cluster_threshold=0.1`, `max_session_hours=4.0`,
`min_cluster_gap_minutes=30`). -/
def cfgDefault : CalcConfig := ⟨5/2, 1/10, 4, 30⟩

/-- `WorkedHoursCalculator.__init__`: `pytz.timezone` may raise for an
unknown timezone name (abstracted by `tzKnown`); the numeric parameters
are stored without any validation. -/
def workedHoursCalculatorInit (tzKnown : Bool) (tau θ maxH : ℚ) (minGap : ℤ) :
    Except String CalcConfig :=
  if tzKnown then .ok ⟨tau, θ, maxH, minGap⟩ else .error "UnknownTimeZoneError"

section ListTools

variable {α : Type} {κ : Type} [DecidableEq κ]

/-- Longest initial run of elements whose key equals `k`, together with the
rest of the list. -/
def spanKey (key : α → κ) (k : κ) : List α → List α × List α
  | [] => ([], [])
  | a :: as =>
    if key a = k then ((a :: (spanKey key k as).1), (spanKey key k as).2)
    else ([], a :: as)

theorem spanKey_append (key : α → κ) (k : κ) :
    ∀ l : List α, (spanKey key k l).1 ++ (spanKey key k l).2 = l
  | [] => rfl
  | a :: as => by
    by_cases h : key a = k <;> simp [spanKey, h, spanKey_append key k as]

theorem spanKey_snd_length_le (key : α → κ) (k : κ) :
    ∀ l : List α, (spanKey key k l).2.length ≤ l.length
  | [] => Nat.le_refl _
  | a :: as => by
    by_cases h : key a = k <;> simp [spanKey, h]
    exact Nat.le_succ_of_le (spanKey_snd_length_le key k as)

theorem spanKey_fst_key (key : α → κ) (k : κ) :
    ∀ l : List α, ∀ x ∈ (spanKey key k l).1, key x = k
  | [] => by simp [spanKey]
  | a :: as => by
    intro x hx
    by_cases h : key a = k
    · rw [spanKey, if_pos h] at hx
      rcases List.mem_cons.mp hx with rfl | hx'
      · exact h
      · exact spanKey_fst_key key k as x hx'
    · rw [spanKey, if_neg h] at hx
      simp at hx

theorem spanKey_fst_sublist (key : α → κ) (k : κ) (l : List α) :
    List.Sublist (spanKey key k l).1 l := by
  conv_rhs => rw [← spanKey_append key k l]
  exact (spanKey key k l).1.sublist_append_left _

theorem spanKey_snd_sublist (key : α → κ) (k : κ) (l : List α) :
    List.Sublist (spanKey key k l).2 l := by
  conv_rhs => rw [← spanKey_append key k l]
  exact List.sublist_append_right _ _

/-- Grouping of consecutive elements with equal keys, as
`itertools.groupby` on a list already sorted by the key. -/
def chunkBy (key : α → κ) : List α → List (List α)
  | [] => []
  | a :: as =>
    (a :: (spanKey key (key a) as).1) :: chunkBy key (spanKey key (key a) as).2
termination_by l => l.length
decreasing_by
  simp only [List.length_cons]
  exact Nat.lt_succ_of_le (spanKey_snd_length_le _ _ _)

theorem chunkBy_flatten (key : α → κ) (l : List α) :
    (chunkBy key l).flatten = l := by
  induction l using chunkBy.induct key with
  | case1 => simp [chunkBy]
  | case2 a as ih =>
    rw [chunkBy]
    simp only [List.flatten_cons, List.cons_append, ih]
    rw [spanKey_append key (key a) as]

theorem chunkBy_ne_nil (key : α → κ) (l : List α) :
    ∀ g ∈ chunkBy key l, g ≠ [] := by
  induction l using chunkBy.induct key with
  | case1 => simp [chunkBy]
  | case2 a as ih =>
    rw [chunkBy]
    intro g hg
    rcases List.mem_cons.mp hg with rfl | hg'
    · simp
    · exact ih g hg'

theorem chunkBy_sublist (key : α → κ) (l : List α) :
    ∀ g ∈ chunkBy key l, List.Sublist g l := by
  induction l using chunkBy.induct key with
  | case1 => simp [chunkBy]
  | case2 a as ih =>
    rw [chunkBy]
    intro g hg
    rcases List.mem_cons.mp hg with rfl | hg'
    · exact (spanKey_fst_sublist key (key a) as).cons₂ a
    · exact ((ih g hg').trans (spanKey_snd_sublist key (key a) as)).cons a

theorem chunkBy_key_const (key : α → κ) (l : List α) :
    ∀ g ∈ chunkBy key l, ∀ x ∈ g, ∀ y ∈ g, key x = key y := by
  induction l using chunkBy.induct key with
  | case1 => simp [chunkBy]
  | case2 a as ih =>
    rw [chunkBy]
    intro g hg
    rcases List.mem_cons.mp hg with rfl | hg'
    · intro x hx y hy
      rcases List.mem_cons.mp hx with rfl | hx' <;>
        rcases List.mem_cons.mp hy with rfl | hy'
      · rfl
      · exact (spanKey_fst_key key (key x) as y hy').symm
      · exact spanKey_fst_key key (key y) as x hx'
      · exact (spanKey_fst_key key (key a) as x hx').trans
          (spanKey_fst_key key (key a) as y hy').symm
    · exact ih g hg'

end ListTools

/-- The sort key of `sorted(clusters, key=lambda c: (c.author, c.repo, c.start))`. -/
def clusterKey (c : CommitCluster) : Lex (String × Lex (String × ℚ)) :=
  toLex (c.author, toLex (c.repo, c.start))

/-- Comparison of clusters by `(author, repo, start)`, lexicographically. -/
def clusterLe (c d : CommitCluster) : Prop := clusterKey c ≤ clusterKey d

instance : DecidableRel clusterLe :=
  fun c d => inferInstanceAs (Decidable (clusterKey c ≤ clusterKey d))

instance : IsTotal CommitCluster clusterLe :=
  ⟨fun a b => le_total (clusterKey a) (clusterKey b)⟩

instance : IsTrans CommitCluster clusterLe :=
  ⟨fun _ _ _ hab hbc => le_trans hab hbc⟩

/-- `sorted(clusters, key=lambda c: (c.author, c.repo, c.start))`. -/
def sortClusters (l : List CommitCluster) : List CommitCluster :=
  List.insertionSort clusterLe l

/-- The `groupby` key of `_merge_close_clusters`: `(c.author, c.repo)`. -/
def clusterGroupKey (c : CommitCluster) : String × String := (c.author, c.repo)

/-- `(next_cluster.start - current_cluster.end).total_seconds() / 60`. -/
def gapMinutes (cur next : CommitCluster) : ℚ := (next.start - cur.«end») / 60

/-- The merged cluster built inside `_merge_close_clusters` when the gap is
small enough. -/
def mergeTwo (maxH : ℚ) (cur next : CommitCluster) : CommitCluster :=
  { author := cur.author
    repo := cur.repo
    start := cur.start
    «end» := next.«end»
    commits := cur.commits ++ next.commits
    duration_hours := min ((next.«end» - cur.start) / 3600) maxH }

/-- The left-to-right merging pass of `_merge_close_clusters` over one
`(author, repo)` group, with `cur` the running "current" cluster. -/
def mergePass (maxH : ℚ) (minGap : ℤ) (cur : CommitCluster) :
    List CommitCluster → List CommitCluster
  | [] => [cur]
  | n :: rest =>
    if gapMinutes cur n ≤ (minGap : ℚ) then
      mergePass maxH minGap (mergeTwo maxH cur n) rest
    else cur :: mergePass maxH minGap n rest

/-- One `(author, repo)` group of `_merge_close_clusters`: a singleton group
is emitted as-is (`len(group_list) == 1`), otherwise the merging pass runs
starting from the first cluster of the group. -/
def mergeGroup (maxH : ℚ) (minGap : ℤ) : List CommitCluster → List CommitCluster
  | [] => []
  | [c] => [c]
  | c :: rest => mergePass maxH minGap c rest

/-- `WorkedHoursCalculator._merge_close_clusters`. -/
def mergeCloseClusters (cfg : CalcConfig) (clusters : List CommitCluster) :
    List CommitCluster :=
  if clusters = [] ∨ cfg.minClusterGapMinutes ≤ 0 then clusters
  else
    ((chunkBy clusterGroupKey (sortClusters clusters)).map
      (mergeGroup cfg.maxSessionHours cfg.minClusterGapMinutes)).flatten

/-- Modelled from the spec's words: "Walk each group left to right with a
running current session; for each next session, if `(next.start − current.end)`
in minutes ≤ `min_gap_minutes`, merge: new end = next.end, member_events =
concatenation, duration = `min((new_end − current.start) in hours,
max_session_hours)`; otherwise emit current and start a new running session
with next." -/
def specMergeWalk (maxH : ℚ) (minGap : ℤ) (cur : CommitCluster) :
    List CommitCluster → List CommitCluster
  | [] => [cur]
  | n :: rest =>
    if (n.start - cur.«end») / 60 ≤ (minGap : ℚ) then
      specMergeWalk maxH minGap
        { author := cur.author
          repo := cur.repo
          start := cur.start
          «end» := n.«end»
          commits := cur.commits ++ n.commits
          duration_hours := min ((n.«end» - cur.start) / 3600) maxH } rest
    else cur :: specMergeWalk maxH minGap n rest

/-- Modelled from the spec's words: the merger is the identity when
`min_gap_minutes ≤ 0`; otherwise it sorts the sessions, groups them by
`(actor, scope)` and walks each group left to right. -/
def mergeSpecModel (cfg : CalcConfig) (clusters : List CommitCluster) :
    List CommitCluster :=
  if cfg.minClusterGapMinutes ≤ 0 then clusters
  else
    ((chunkBy clusterGroupKey (sortClusters clusters)).map (fun g =>
      match g with
      | [] => []
      | c :: rest =>
        specMergeWalk cfg.maxSessionHours cfg.minClusterGapMinutes c rest)).flatten

/-- The sort key of `df.sort_values(['author', 'repo', 'timestamp'])`. -/
def commitKey (c : Commit) : Lex (String × Lex (String × ℚ)) :=
  toLex (c.author, toLex (c.repo, c.ts))

/-- Comparison of commits by `(author, repo, timestamp)`, lexicographically. -/
def commitLe (c d : Commit) : Prop := commitKey c ≤ commitKey d

instance : DecidableRel commitLe :=
  fun c d => inferInstanceAs (Decidable (commitKey c ≤ commitKey d))

instance : IsTotal Commit commitLe :=
  ⟨fun a b => le_total (commitKey a) (commitKey b)⟩

instance : IsTrans Commit commitLe :=
  ⟨fun _ _ _ hab hbc => le_trans hab hbc⟩

/-- `df.sort_values(['author', 'repo', 'timestamp'])`. -/
def sortCommits (l : List Commit) : List Commit := List.insertionSort commitLe l

/-- The `groupby` key `['author', 'repo']` of `calculate_clusters`. -/
def authorRepo (c : Commit) : String × String := (c.author, c.repo)

/-- One row of the working DataFrame of `calculate_clusters` after the
derived columns `gap_hours`, `is_new_cluster` (`weight < threshold`) and
`cluster_id` (group-wise cumulative sum of `is_new_cluster`) are added. -/
structure Row where
  commit : Commit
  gapHours : Option ℚ
  isNewCluster : Bool
  clusterId : ℕ
deriving DecidableEq, Repr

instance : Inhabited Row := ⟨⟨⟨"", "", "", 0, ""⟩, none, false, 0⟩⟩

instance : Inhabited Commit := ⟨⟨"", "", "", 0, ""⟩⟩

/-- Annotation of the non-first rows of an `(author, repo)` partition:
`gap_hours` is the difference to the previous row in hours, the boundary
flag is the decision `b` on that gap (the float code computes
`np.exp(-gap/tau) < threshold`), and `cluster_id` accumulates the flags. -/
def annotateFrom (b : ℚ → Bool) (prev : Commit) (cnt : ℕ) :
    List Commit → List Row
  | [] => []
  | c :: cs =>
    let g := (c.ts - prev.ts) / 3600
    let f := b g
    let cnt' := if f then cnt + 1 else cnt
    ⟨c, some g, f, cnt'⟩ :: annotateFrom b c cnt' cs

/-- Annotation of a whole `(author, repo)` partition: the first row has
`gap_hours = NaN`, hence weight `1.0` and boundary flag `1.0 < threshold`. -/
def annotateChunk (θ : ℚ) (b : ℚ → Bool) : List Commit → List Row
  | [] => []
  | c :: cs =>
    let f := decide (1 < θ)
    let cnt := if f then 1 else 0
    ⟨c, none, f, cnt⟩ :: annotateFrom b c cnt cs

/-- `df['global_cluster_id'] = author + '_' + repo + '_' + str(cluster_id)`. -/
def globalClusterId (r : Row) : String :=
  r.commit.author ++ "_" ++ r.commit.repo ++ "_" ++ toString r.clusterId

/-- The annotated rows of the sorted DataFrame, partition by partition. -/
def rowsOf (θ : ℚ) (b : ℚ → Bool) (commits : List Commit) : List Row :=
  ((chunkBy authorRepo (sortCommits commits)).map (annotateChunk θ b)).flatten

/-- The group keys of `df.groupby('global_cluster_id')`: the distinct
`global_cluster_id` values, in sorted order (pandas sorts group keys). -/
def gidKeys (rows : List Row) : List String :=
  List.insertionSort (· ≤ ·) (rows.map globalClusterId).dedup

/-- Building one `CommitCluster` from a `global_cluster_id` group of rows:
`start`/`end` are the min/max timestamps; the duration is the time span in
hours capped at `max_session_hours`, except that a single-commit group gets
a 15-minute session (`min(0.25, max_session_hours)` hours, end pushed 15
minutes past start). -/
def buildCluster (maxH : ℚ) : List Row → CommitCluster
  | [] => ⟨"", "", 0, 0, [], 0⟩
  | r :: rs =>
    let start := rs.foldl (fun a x => min a x.commit.ts) r.commit.ts
    let stop := rs.foldl (fun a x => max a x.commit.ts) r.commit.ts
    if rs = [] then
      { author := r.commit.author
        repo := r.commit.repo
        start := start
        «end» := start + 900
        commits := [r.commit]
        duration_hours := min (1/4) maxH }
    else
      { author := r.commit.author
        repo := r.commit.repo
        start := start
        «end» := stop
        commits := (r :: rs).map Row.commit
        duration_hours := min ((stop - start) / 3600) maxH }

/-- The clusters of `calculate_clusters` before the final merging step:
rows grouped by `global_cluster_id` (string keys, so distinct
`(author, repo, cluster_id)` triples whose concatenations coincide fall
into the same group), one cluster per group. -/
def rawClusters (cfg : CalcConfig) (b : ℚ → Bool) (commits : List Commit) :
    List CommitCluster :=
  let rows := rowsOf cfg.clusterThreshold b commits
  ((gidKeys rows).map (fun k => rows.filter (fun r => globalClusterId r = k))).map
    (buildCluster cfg.maxSessionHours)

/-- `WorkedHoursCalculator.calculate_clusters`: empty input short-circuits;
otherwise cluster detection followed by `_merge_close_clusters`. -/
def calculateClusters (cfg : CalcConfig) (b : ℚ → Bool) (commits : List Commit) :
    List CommitCluster :=
  if commits = [] then []
  else mergeCloseClusters cfg (rawClusters cfg b commits)

/-- The exact real-number boundary condition of the clustering code:
`np.exp(-gap_hours / tau) < cluster_threshold`. -/
def isBoundaryGap (tau θ : ℚ) (g : ℚ) : Prop :=
  Real.exp (-((g : ℝ) / (tau : ℝ))) < (θ : ℝ)

/-- `b` decides exactly the boundary condition `exp(-gap/tau) < threshold`. -/
def boundaryMatches (tau θ : ℚ) (b : ℚ → Bool) : Prop :=
  ∀ g : ℚ, b g = true ↔ isBoundaryGap tau θ g

/-- The deduplication loop of
`GitHubCommitTrackerService._process_commits_to_clusters`: commits whose
`sha` is already in `seen_commits` are skipped; every accepted commit has
its `sha` added to `seen_commits` at the moment of acceptance. -/
def filterNewCommits : List Commit → Finset String → List Commit × Finset String
  | [], seen => ([], seen)
  | c :: cs, seen =>
    if c.sha ∈ seen then filterNewCommits cs seen
    else
      let r := filterNewCommits cs (insert c.sha seen)
      (c :: r.1, r.2)

/-- `_process_commits_to_clusters`: deduplicate against `seen_commits`,
then run the cluster calculation on the accepted commits.  Returns the
resulting sessions and the updated `seen_commits` set. -/
def processCommitsToClusters (cfg : CalcConfig) (b : ℚ → Bool)
    (commits : List Commit) (seen : Finset String) :
    List CommitCluster × Finset String :=
  let p := filterNewCommits commits seen
  (calculateClusters cfg b p.1, p.2)

/-- All member events of a cluster list, concatenated. -/
def flatCommits (L : List CommitCluster) : List Commit :=
  (L.map CommitCluster.commits).flatten

theorem annotateFrom_map_commit (b : ℚ → Bool) :
    ∀ (cs : List Commit) (prev : Commit) (cnt : ℕ),
      (annotateFrom b prev cnt cs).map Row.commit = cs
  | [], _, _ => rfl
  | c :: cs, prev, cnt => by
    simp only [annotateFrom, List.map_cons, List.cons.injEq, true_and]
    exact annotateFrom_map_commit b cs c _

theorem annotateChunk_map_commit (θ : ℚ) (b : ℚ → Bool) :
    ∀ cs : List Commit, (annotateChunk θ b cs).map Row.commit = cs
  | [] => rfl
  | c :: cs => by
    simp only [annotateChunk, List.map_cons, List.cons.injEq, true_and]
    exact annotateFrom_map_commit b cs c _

theorem rowsOf_commit_perm (θ : ℚ) (b : ℚ → Bool) (cs : List Commit) :
    List.Perm ((rowsOf θ b cs).map Row.commit) cs := by
  unfold rowsOf
  rw [List.map_flatten, List.map_map]
  have : (List.map Row.commit ∘ annotateChunk θ b) = id := by
    funext l
    exact annotateChunk_map_commit θ b l
  rw [this, List.map_id, chunkBy_flatten]
  exact List.perm_insertionSort commitLe cs

theorem flatten_filter_perm {α κ : Type} [DecidableEq κ] (key : α → κ) :
    ∀ (ks : List κ) (l : List α), ks.Nodup → (∀ x ∈ l, key x ∈ ks) →
      List.Perm ((ks.map (fun k => l.filter (fun x => key x = k))).flatten) l
  | [], l, _, hcov => by
    have : l = [] := List.eq_nil_iff_forall_not_mem.mpr (fun a ha => by
      simpa using hcov a ha)
    simp [this]
  | k :: ks, l, hnd, hcov => by
    simp only [List.map_cons, List.flatten_cons]
    have hknotin : k ∉ ks := (List.nodup_cons.mp hnd).1
    set l' := l.filter (fun x => !(decide (key x = k))) with hl'
    have hfilters : ∀ k' ∈ ks,
        l.filter (fun x => key x = k') = l'.filter (fun x => key x = k') := by
      intro k' hk'
      rw [hl', List.filter_filter]
      apply List.filter_congr
      intro x _
      by_cases hx : key x = k'
      · have hkk : k' ≠ k := fun e => hknotin (e ▸ hk')
        simp [hx, hkk]
      · simp [hx]
    have hmapeq : ks.map (fun k' => l.filter (fun x => key x = k')) =
        ks.map (fun k' => l'.filter (fun x => key x = k')) :=
      List.map_congr_left hfilters
    rw [hmapeq]
    have hcov' : ∀ x ∈ l', key x ∈ ks := by
      intro x hx
      rcases List.mem_filter.mp hx with ⟨hxl, hxk⟩
      rcases List.mem_cons.mp (hcov x hxl) with he | he
      · exfalso
        simp [he] at hxk
      · exact he
    have ih := flatten_filter_perm key ks l' (List.nodup_cons.mp hnd).2 hcov'
    refine (List.Perm.append_left _ ih).trans ?_
    exact List.filter_append_perm _ l

theorem buildCluster_commits (maxH : ℚ) :
    ∀ g : List Row, (buildCluster maxH g).commits = g.map Row.commit
  | [] => rfl
  | r :: rs => by
    by_cases h : rs = [] <;> simp [buildCluster, h]

theorem gidKeys_nodup (rows : List Row) : (gidKeys rows).Nodup :=
  (List.perm_insertionSort _ _).nodup_iff.mpr (rows.map globalClusterId).nodup_dedup

theorem gidKeys_cover (rows : List Row) :
    ∀ r ∈ rows, globalClusterId r ∈ gidKeys rows := by
  intro r hr
  unfold gidKeys
  rw [List.mem_insertionSort, List.mem_dedup]
  exact List.mem_map_of_mem globalClusterId hr

theorem rawClusters_perm (cfg : CalcConfig) (b : ℚ → Bool) (cs : List Commit) :
    List.Perm (flatCommits (rawClusters cfg b cs)) cs := by
  unfold rawClusters flatCommits
  rw [List.map_map, List.map_map]
  have hcomm : (CommitCluster.commits ∘ buildCluster cfg.maxSessionHours) ∘
      (fun k => (rowsOf cfg.clusterThreshold b cs).filter
        (fun r => globalClusterId r = k)) =
      (fun k => ((rowsOf cfg.clusterThreshold b cs).filter
        (fun r => globalClusterId r = k)).map Row.commit) := by
    funext k
    exact buildCluster_commits cfg.maxSessionHours _
  rw [hcomm]
  have h1 : List.Perm
      ((List.map (fun k => (rowsOf cfg.clusterThreshold b cs).filter
          (fun r => globalClusterId r = k))
        (gidKeys (rowsOf cfg.clusterThreshold b cs))).flatten)
      (rowsOf cfg.clusterThreshold b cs) :=
    flatten_filter_perm globalClusterId _ _ (gidKeys_nodup _) (gidKeys_cover _)
  have h2 := (h1.map Row.commit)
  rw [List.map_flatten, List.map_map] at h2
  exact h2.trans (rowsOf_commit_perm cfg.clusterThreshold b cs)

theorem mergePass_flatCommits (maxH : ℚ) (minGap : ℤ) :
    ∀ (rest : List CommitCluster) (cur : CommitCluster),
      flatCommits (mergePass maxH minGap cur rest) = cur.commits ++ flatCommits rest
  | [], cur => by simp [mergePass, flatCommits]
  | n :: rest, cur => by
    rw [mergePass]
    by_cases h : gapMinutes cur n ≤ (minGap : ℚ)
    · rw [if_pos h, mergePass_flatCommits maxH minGap rest (mergeTwo maxH cur n)]
      simp [mergeTwo, flatCommits]
    · rw [if_neg h]
      simp only [flatCommits, List.map_cons, List.flatten_cons]
      rw [← flatCommits, mergePass_flatCommits maxH minGap rest n]
      simp [flatCommits]

theorem mergePass_eq_specMergeWalk (maxH : ℚ) (minGap : ℤ) :
    ∀ (rest : List CommitCluster) (cur : CommitCluster),
      mergePass maxH minGap cur rest = specMergeWalk maxH minGap cur rest
  | [], _ => rfl
  | n :: rest, cur => by
    rw [mergePass, specMergeWalk]
    simp only [gapMinutes, mergeTwo]
    by_cases h : (n.start - cur.«end») / 60 ≤ (minGap : ℚ)
    · rw [if_pos h, if_pos h, mergePass_eq_specMergeWalk maxH minGap rest _]
    · rw [if_neg h, if_neg h, mergePass_eq_specMergeWalk maxH minGap rest n]

theorem mergeGroup_flatCommits (maxH : ℚ) (minGap : ℤ) :
    ∀ g : List CommitCluster, flatCommits (mergeGroup maxH minGap g) = flatCommits g
  | [] => rfl
  | [_] => rfl
  | c :: c₂ :: rest => by
    show flatCommits (mergePass maxH minGap c (c₂ :: rest)) = _
    rw [mergePass_flatCommits]
    simp [flatCommits]

theorem flatCommits_flatten (L : List (List CommitCluster)) :
    flatCommits L.flatten = (L.map flatCommits).flatten := by
  induction L with
  | nil => rfl
  | cons g L ih => simp [flatCommits, List.map_append, List.flatten_append] at ih ⊢; rw [← ih]

theorem mergeCloseClusters_perm (cfg : CalcConfig) (cls : List CommitCluster) :
    List.Perm (flatCommits (mergeCloseClusters cfg cls)) (flatCommits cls) := by
  unfold mergeCloseClusters
  by_cases h : cls = [] ∨ cfg.minClusterGapMinutes ≤ 0
  · rw [if_pos h]
  · rw [if_neg h]
    rw [flatCommits_flatten, List.map_map]
    have : (flatCommits ∘ mergeGroup cfg.maxSessionHours cfg.minClusterGapMinutes) =
        flatCommits := by
      funext g
      exact mergeGroup_flatCommits _ _ g
    rw [this, ← flatCommits_flatten, chunkBy_flatten]
    have hperm := (List.perm_insertionSort clusterLe cls).map CommitCluster.commits
    unfold flatCommits
    exact hperm.flatten

theorem calculateClusters_perm (cfg : CalcConfig) (b : ℚ → Bool)
    (cs : List Commit) :
    List.Perm (flatCommits (calculateClusters cfg b cs)) cs := by
  unfold calculateClusters
  by_cases h : cs = []
  · simp [h, flatCommits]
  · rw [if_neg h]
    exact (mergeCloseClusters_perm cfg _).trans (rawClusters_perm cfg b cs)

/-- Invariant maintained by the pipeline for every produced session:
the session is well-formed (`start ≤ end`) and its duration lies in
`[0, max_session_hours]`. -/
def clusterInv (maxH : ℚ) (c : CommitCluster) : Prop :=
  c.start ≤ c.«end» ∧ 0 ≤ c.duration_hours ∧ c.duration_hours ≤ maxH

theorem foldl_min_le (l : List Row) :
    ∀ a : ℚ, l.foldl (fun x y => min x y.commit.ts) a ≤ a := by
  induction l with
  | nil => intro a; exact le_refl a
  | cons r rs ih =>
    intro a
    exact le_trans (ih (min a r.commit.ts)) (min_le_left _ _)

theorem le_foldl_max (l : List Row) :
    ∀ a : ℚ, a ≤ l.foldl (fun x y => max x y.commit.ts) a := by
  induction l with
  | nil => intro a; exact le_refl a
  | cons r rs ih =>
    intro a
    exact le_trans (le_max_left _ _) (ih (max a r.commit.ts))

theorem buildCluster_inv (maxH : ℚ) (hmax : 0 < maxH) :
    ∀ g : List Row, clusterInv maxH (buildCluster maxH g)
  | [] => by
    refine ⟨le_refl 0, le_refl 0, hmax.le⟩
  | r :: rs => by
    by_cases h : rs = []
    · subst h
      refine ⟨by simp [buildCluster], ?_, ?_⟩
      · simp only [buildCluster]
        exact le_min (by norm_num) hmax.le
      · simp only [buildCluster]
        exact min_le_right _ _
    · have hss : rs.foldl (fun a x => min a x.commit.ts) r.commit.ts ≤
          rs.foldl (fun a x => max a x.commit.ts) r.commit.ts :=
        le_trans (foldl_min_le rs r.commit.ts) (le_foldl_max rs r.commit.ts)
      refine ⟨?_, ?_, ?_⟩
      · simpa only [buildCluster, if_neg h] using hss
      · simp only [buildCluster, if_neg h]
        exact le_min (div_nonneg (sub_nonneg.mpr hss) (by norm_num)) hmax.le
      · simp only [buildCluster, if_neg h]
        exact min_le_right _ _

theorem rawClusters_inv (cfg : CalcConfig) (b : ℚ → Bool) (cs : List Commit)
    (hmax : 0 < cfg.maxSessionHours) :
    ∀ c ∈ rawClusters cfg b cs, clusterInv cfg.maxSessionHours c := by
  intro c hc
  rcases List.mem_map.mp hc with ⟨g, _, rfl⟩
  exact buildCluster_inv cfg.maxSessionHours hmax g

theorem clusterLe_start (x y : CommitCluster) (hxy : clusterLe x y)
    (hkey : clusterGroupKey x = clusterGroupKey y) : x.start ≤ y.start := by
  have ha : x.author = y.author := congrArg Prod.fst hkey
  have hr : x.repo = y.repo := congrArg Prod.snd hkey
  rcases (Prod.Lex.le_iff _ _).mp hxy with h | ⟨_, h2⟩
  · exact absurd h (by simp [ha])
  · rcases (Prod.Lex.le_iff _ _).mp h2 with h | ⟨_, h3⟩
    · exact absurd h (by simp [hr])
    · exact h3

theorem chunk_pairwise_start (cls : List CommitCluster) :
    ∀ g ∈ chunkBy clusterGroupKey (sortClusters cls),
      g.Pairwise (fun x y => x.start ≤ y.start) := by
  intro g hg
  have hsorted : (sortClusters cls).Pairwise clusterLe :=
    List.sorted_insertionSort clusterLe cls
  have hpair : g.Pairwise clusterLe :=
    hsorted.sublist (chunkBy_sublist clusterGroupKey (sortClusters cls) g hg)
  have hkey := chunkBy_key_const clusterGroupKey (sortClusters cls) g hg
  exact List.Pairwise.imp_of_mem
    (fun {x y} hx hy hxy => clusterLe_start x y hxy (hkey x hx y hy)) hpair

theorem mergeTwo_inv (maxH : ℚ) (hmax : 0 < maxH) (cur n : CommitCluster)
    (hn : clusterInv maxH n)
    (hstart : cur.start ≤ n.start) : clusterInv maxH (mergeTwo maxH cur n) := by
  have hse : cur.start ≤ n.«end» := le_trans hstart hn.1
  refine ⟨hse, ?_, ?_⟩
  · exact le_min (div_nonneg (sub_nonneg.mpr hse) (by norm_num)) hmax.le
  · exact min_le_right _ _

theorem mergePass_inv (maxH : ℚ) (minGap : ℤ) (hmax : 0 < maxH) :
    ∀ (rest : List CommitCluster) (cur : CommitCluster),
      clusterInv maxH cur → (∀ x ∈ rest, clusterInv maxH x) →
      (∀ x ∈ rest, cur.start ≤ x.start) →
      rest.Pairwise (fun x y => x.start ≤ y.start) →
      ∀ c ∈ mergePass maxH minGap cur rest, clusterInv maxH c
  | [], cur, hcur, _, _, _ => by
    intro c hc
    rcases List.mem_singleton.mp hc with rfl
    exact hcur
  | n :: rest, cur, hcur, hrest, hstart, hpair => by
    intro c hc
    rw [mergePass] at hc
    rcases List.pairwise_cons.mp hpair with ⟨hn_rest, hpair'⟩
    by_cases h : gapMinutes cur n ≤ (minGap : ℚ)
    · rw [if_pos h] at hc
      refine mergePass_inv maxH minGap hmax rest (mergeTwo maxH cur n) ?_ ?_ ?_ hpair' c hc
      · exact mergeTwo_inv maxH hmax cur n
          (hrest n (List.mem_cons_self n rest)) (hstart n (List.mem_cons_self n rest))
      · exact fun x hx => hrest x (List.mem_cons_of_mem n hx)
      · intro x hx
        exact le_trans (hstart n (List.mem_cons_self n rest)) (hn_rest x hx)
    · rw [if_neg h] at hc
      rcases List.mem_cons.mp hc with rfl | hc'
      · exact hcur
      · refine mergePass_inv maxH minGap hmax rest n
          (hrest n (List.mem_cons_self n rest)) ?_ hn_rest hpair' c hc'
        exact fun x hx => hrest x (List.mem_cons_of_mem n hx)

theorem mergeGroup_inv (maxH : ℚ) (minGap : ℤ) (hmax : 0 < maxH)
    (g : List CommitCluster) (hg : ∀ x ∈ g, clusterInv maxH x)
    (hpair : g.Pairwise (fun x y => x.start ≤ y.start)) :
    ∀ c ∈ mergeGroup maxH minGap g, clusterInv maxH c := by
  match g with
  | [] => intro c hc; simp [mergeGroup] at hc
  | [c₀] =>
    intro c hc
    rcases List.mem_singleton.mp hc with rfl
    exact hg c (List.mem_singleton_self c)
  | c₀ :: c₁ :: rest =>
    intro c hc
    have hc' : c ∈ mergePass maxH minGap c₀ (c₁ :: rest) := hc
    rcases List.pairwise_cons.mp hpair with ⟨h₀, hpair'⟩
    exact mergePass_inv maxH minGap hmax (c₁ :: rest) c₀
      (hg c₀ (List.mem_cons_self _ _))
      (fun x hx => hg x (List.mem_cons_of_mem c₀ hx)) h₀ hpair' c hc'

theorem mergeCloseClusters_inv (cfg : CalcConfig) (cls : List CommitCluster)
    (hmax : 0 < cfg.maxSessionHours)
    (hin : ∀ c ∈ cls, clusterInv cfg.maxSessionHours c) :
    ∀ c ∈ mergeCloseClusters cfg cls, clusterInv cfg.maxSessionHours c := by
  intro c hc
  unfold mergeCloseClusters at hc
  by_cases h : cls = [] ∨ cfg.minClusterGapMinutes ≤ 0
  · rw [if_pos h] at hc
    exact hin c hc
  · rw [if_neg h] at hc
    rcases List.mem_flatten.mp hc with ⟨l, hl, hcl⟩
    rcases List.mem_map.mp hl with ⟨g, hg, rfl⟩
    have hmem : ∀ x ∈ g, clusterInv cfg.maxSessionHours x := by
      intro x hx
      have : x ∈ sortClusters cls :=
        (chunkBy_sublist clusterGroupKey (sortClusters cls) g hg).mem hx
      exact hin x ((List.perm_insertionSort clusterLe cls).mem_iff.mp this)
    exact mergeGroup_inv cfg.maxSessionHours cfg.minClusterGapMinutes hmax g hmem
      (chunk_pairwise_start cls g hg) c hcl

theorem annotateFrom_getD_flag (b : ℚ → Bool) :
    ∀ (cs : List Commit) (prev : Commit) (cnt i : ℕ), i < cs.length →
      ((annotateFrom b prev cnt cs).getD i default).isNewCluster =
        b (((cs.getD i default).ts - ((prev :: cs).getD i default).ts) / 3600)
  | [], _, _, i, h => absurd h (by simp)
  | c :: cs, prev, cnt, 0, _ => rfl
  | c :: cs, prev, cnt, i + 1, h => by
    have h' : i < cs.length := Nat.lt_of_succ_lt_succ h
    simp only [annotateFrom, List.getD_cons_succ]
    exact annotateFrom_getD_flag b cs c _ i h'

theorem annotateFrom_getD_cid_succ (b : ℚ → Bool) :
    ∀ (cs : List Commit) (prev : Commit) (cnt i : ℕ), i + 1 < cs.length →
      ((annotateFrom b prev cnt cs).getD (i + 1) default).clusterId =
        (if ((annotateFrom b prev cnt cs).getD (i + 1) default).isNewCluster
         then ((annotateFrom b prev cnt cs).getD i default).clusterId + 1
         else ((annotateFrom b prev cnt cs).getD i default).clusterId)
  | [], _, _, i, h => absurd h (by simp)
  | c :: cs, prev, cnt, 0, h => by
    have h' : 0 < cs.length := Nat.lt_of_succ_lt_succ h
    rcases cs with _ | ⟨c₂, cs'⟩
    · exact absurd h' (by simp)
    · simp only [annotateFrom, List.getD_cons_succ, List.getD_cons_zero]
  | c :: cs, prev, cnt, i + 1, h => by
    have h' : i + 1 < cs.length := Nat.lt_of_succ_lt_succ h
    simp only [annotateFrom, List.getD_cons_succ]
    exact annotateFrom_getD_cid_succ b cs c _ i h'

theorem annotateChunk_getD_flag_zero (θ : ℚ) (b : ℚ → Bool) (c : Commit)
    (cs : List Commit) :
    ((annotateChunk θ b (c :: cs)).getD 0 default).isNewCluster =
      decide (1 < θ) := rfl

theorem annotateChunk_getD_flag_succ (θ : ℚ) (b : ℚ → Bool) (c : Commit)
    (cs : List Commit) (i : ℕ) (h : i < cs.length) :
    ((annotateChunk θ b (c :: cs)).getD (i + 1) default).isNewCluster =
      b (((cs.getD i default).ts - ((c :: cs).getD i default).ts) / 3600) := by
  simp only [annotateChunk, List.getD_cons_succ]
  exact annotateFrom_getD_flag b cs c _ i h

theorem annotateChunk_getD_cid_succ (θ : ℚ) (b : ℚ → Bool) (c : Commit)
    (cs : List Commit) (i : ℕ) (h : i < cs.length) :
    ((annotateChunk θ b (c :: cs)).getD (i + 1) default).clusterId =
      (if ((annotateChunk θ b (c :: cs)).getD (i + 1) default).isNewCluster
       then ((annotateChunk θ b (c :: cs)).getD i default).clusterId + 1
       else ((annotateChunk θ b (c :: cs)).getD i default).clusterId) := by
  rcases i with _ | i
  · rcases cs with _ | ⟨c₂, cs'⟩
    · exact absurd h (by simp)
    · simp only [annotateChunk, annotateFrom, List.getD_cons_succ, List.getD_cons_zero]
  · have h' : i + 1 < cs.length := h
    simp only [annotateChunk, List.getD_cons_succ]
    exact annotateFrom_getD_cid_succ b cs c _ i h'

theorem filterNewCommits_seen_mono :
    ∀ (cs : List Commit) (seen : Finset String),
      seen ⊆ (filterNewCommits cs seen).2
  | [], seen => Finset.Subset.refl seen
  | c :: cs, seen => by
    by_cases h : c.sha ∈ seen
    · rw [filterNewCommits, if_pos h]
      exact filterNewCommits_seen_mono cs seen
    · rw [filterNewCommits, if_neg h]
      exact (Finset.subset_insert c.sha seen).trans
        (filterNewCommits_seen_mono cs (insert c.sha seen))

theorem filterNewCommits_accepted :
    ∀ (cs : List Commit) (seen : Finset String),
      ∀ x ∈ (filterNewCommits cs seen).1,
        x.sha ∉ seen ∧ x.sha ∈ (filterNewCommits cs seen).2
  | [], seen => by simp [filterNewCommits]
  | c :: cs, seen => by
    intro x hx
    by_cases h : c.sha ∈ seen
    · rw [filterNewCommits, if_pos h] at hx ⊢
      exact filterNewCommits_accepted cs seen x hx
    · rw [filterNewCommits, if_neg h] at hx ⊢
      rcases List.mem_cons.mp hx with rfl | hx'
      · exact ⟨h, filterNewCommits_seen_mono cs (insert x.sha seen)
          (Finset.mem_insert_self x.sha seen)⟩
      · rcases filterNewCommits_accepted cs (insert c.sha seen) x hx' with ⟨hni, hmem⟩
        exact ⟨fun hxs => hni (Finset.mem_insert_of_mem hxs), hmem⟩

theorem filterNewCommits_dup_step (c : Commit) (cs : List Commit)
    (seen : Finset String) (h : c.sha ∈ seen) :
    filterNewCommits (c :: cs) seen = filterNewCommits cs seen := by
  rw [filterNewCommits, if_pos h]

/-- `WorkItemState` from `work_item.py` (the variants relevant here). -/
inductive WorkItemState
  | new
  | active
  | inProgress
  | resolved
  | closed
  | removed
  | done
deriving DecidableEq, Repr

/-- `WorkItemState.is_completed`: `self in [RESOLVED, CLOSED, DONE]`. -/
def WorkItemState.isCompleted : WorkItemState → Bool
  | .resolved => true
  | .closed => true
  | .done => true
  | _ => false

/-- `WorkItem` from `work_item.py`, restricted to the fields the matching
service reads (`id`, `title`, `state`). -/
structure WorkItem where
  id : ℕ
  title : String
  state : WorkItemState
deriving DecidableEq, Repr

/-- `WorkItem.is_completed`. -/
def WorkItem.isCompleted (w : WorkItem) : Bool := w.state.isCompleted

/-- `TimeEntry` from `time_entry.py`; `_extracted_work_item_ids` and
`_confidence_score` are the two domain fields the matcher writes. -/
structure TimeEntry where
  id : String
  userId : String
  userName : String
  description : Option String
  startTime : ℚ
  endTime : ℚ
  durationSeconds : ℚ
  billable : Bool
  projectId : Option String
  projectName : Option String
  tags : List String
  workspaceId : Option String
  extractedWorkItemIds : List ℕ
  confidenceScore : ℚ
deriving DecidableEq, Repr

/-- `TimeEntry.set_extracted_work_items`: stores a copy of the id list and
clamps the confidence into `[0, 1]`. -/
def setExtractedWorkItems (e : TimeEntry) (ids : List ℕ) (conf : ℚ) : TimeEntry :=
  { e with extractedWorkItemIds := ids, confidenceScore := max 0 (min 1 conf) }

/-- Python's `\w` on ASCII text: letters, digits and underscore. -/
def isWordChar (c : Char) : Bool := c.isAlphanum || c = '_'

/-- Case-insensitive character comparison (`re.IGNORECASE` on ASCII). -/
def lowEq (a b : Char) : Bool := a.toLower = b.toLower

/-- Case-insensitive literal match at the head of the text, returning the
rest of the text on success. -/
def dropTagCI : List Char → List Char → Option (List Char)
  | [], s => some s
  | _ :: _, [] => none
  | p :: ps, c :: cs => if lowEq p c then dropTagCI ps cs else none

theorem dropTagCI_length_le :
    ∀ (pat s after : List Char), dropTagCI pat s = some after →
      after.length ≤ s.length
  | [], s, after => by
    intro h
    rw [dropTagCI] at h
    injection h with h
    exact h ▸ Nat.le_refl s.length
  | _ :: _, [], after => by intro h; simp [dropTagCI] at h
  | p :: ps, c :: cs, after => by
    intro h
    rw [dropTagCI] at h
    by_cases hpc : lowEq p c
    · rw [if_pos hpc] at h
      exact Nat.le_succ_of_le (dropTagCI_length_le ps cs after h)
    · rw [if_neg hpc] at h
      exact absurd h (by simp)

/-- The longest initial run of digits of a text, and the rest
(the greedy matching of `\d*`). -/
def spanDigits (s : List Char) : List Char × List Char :=
  spanKey (fun c => c.isDigit) true s

theorem spanDigits_append (s : List Char) :
    (spanDigits s).1 ++ (spanDigits s).2 = s :=
  spanKey_append _ true s

theorem spanDigits_length (s : List Char) :
    (spanDigits s).1.length + (spanDigits s).2.length = s.length := by
  have := congrArg List.length (spanDigits_append s)
  simpa using this

/-- `re.findall` for a pattern `LIT(\d{4,6})` with a case-insensitive
literal `pat`: scan left to right; at a position where the literal matches
and at least four digits follow, capture greedily up to six digits and
continue after the capture; otherwise advance one character. -/
def scanMarker (pat : List Char) : List Char → List (List Char)
  | [] => []
  | c :: rest =>
    match hdrop : dropTagCI pat (c :: rest) with
    | some after =>
      if h4 : 4 ≤ (spanDigits after).1.length then
        (spanDigits after).1.take 6 ::
          scanMarker pat ((spanDigits after).1.drop 6 ++ (spanDigits after).2)
      else scanMarker pat rest
    | none => scanMarker pat rest
termination_by s => s.length
decreasing_by
  · have h1 := dropTagCI_length_le pat (c :: rest) after hdrop
    have h2 := spanDigits_length after
    simp only [List.length_append, List.length_drop, List.length_cons] at *
    omega
  · simp only [List.length_cons]
    omega
  · simp only [List.length_cons]
    omega

/-- `re.findall` for `\[(\d{4,6})\]` and `\((\d{4,6})\)`: a match needs the
opening character, a digit run of length 4 to 6 and the closing character
immediately after the run (greedy matching with backtracking can only
succeed on the full run). -/
def scanBracket (openC closeC : Char) : List Char → List (List Char)
  | [] => []
  | c :: rest =>
    if c = openC then
      match hspan : (spanDigits rest).2 with
      | d :: rest' =>
        if d = closeC ∧ 4 ≤ (spanDigits rest).1.length ∧
            (spanDigits rest).1.length ≤ 6 then
          (spanDigits rest).1 :: scanBracket openC closeC rest'
        else scanBracket openC closeC rest
      | [] => scanBracket openC closeC rest
    else scanBracket openC closeC rest
termination_by s => s.length
decreasing_by
  · have h2 := spanDigits_length rest
    have h3 : (spanDigits rest).2.length = rest'.length + 1 := by
      rw [hspan]
      simp
    simp only [List.length_cons]
    omega
  all_goals simp only [List.length_cons]; omega

/-- `re.findall` for `\b(\d{4,6})\b`: a maximal digit run matches exactly
when it has length 4 to 6, the previous character is not a word character
(or the run starts the text) and the next character is not a word
character (or the run ends the text); after a run - matched or not - the
scan continues behind it. -/
def scanPlain : Bool → List Char → List (List Char)
  | _, [] => []
  | prevWord, c :: rest =>
    if c.isDigit && !prevWord then
      if 4 ≤ (c :: (spanDigits rest).1).length ∧
          (c :: (spanDigits rest).1).length ≤ 6 ∧
          (match (spanDigits rest).2 with
           | [] => true
           | d :: _ => !isWordChar d) = true then
        (c :: (spanDigits rest).1) :: scanPlain true (spanDigits rest).2
      else scanPlain true (spanDigits rest).2
    else scanPlain (isWordChar c) rest
termination_by _ s => s.length
decreasing_by
  · have h2 := spanDigits_length rest
    simp only [List.length_cons]
    omega
  · have h2 := spanDigits_length rest
    simp only [List.length_cons]
    omega
  · simp only [List.length_cons]
    omega

/-- `int()` on a string of digits. -/
def digitsToNat (ds : List Char) : ℕ :=
  ds.foldl (fun a c => 10 * a + (c.toNat - Char.toNat '0')) 0

/-- `MatchingPattern` from `matching_service.py`; the compiled regular
expression is embedded as the `matcher` scan function. -/
structure MatchingPattern where
  name : String
  priority : ℕ
  requiresValidation : Bool
  matcher : String → List (List Char)

/-- `MatchingPattern.extract`: run the regex over the text, convert every
capture to an integer and keep those in the validation range
`1 <= id <= 999999`. -/
def MatchingPattern.extract (p : MatchingPattern) (text : String) : List ℕ :=
  ((p.matcher text).map digitsToNat).filter
    (fun n => decide (1 ≤ n) && decide (n ≤ 999999))

/-- `MatchingService.DEFAULT_PATTERNS` (already in priority order, which is
preserved by the stable sort in `__init__`). -/
def defaultPatterns : List MatchingPattern :=
  [ ⟨"hash", 1, false, fun t => scanMarker ['#'] t.data⟩,
    ⟨"ado_dash", 2, false, fun t => scanMarker ['a', 'd', 'o', '-'] t.data⟩,
    ⟨"ado_underscore", 2, false, fun t => scanMarker ['a', 'd', 'o', '_'] t.data⟩,
    ⟨"wi_colon", 3, false, fun t => scanMarker ['w', 'i', ':'] t.data⟩,
    ⟨"wi_underscore", 3, false, fun t => scanMarker ['w', 'i', '_'] t.data⟩,
    ⟨"brackets", 4, false, fun t => scanBracket '[' ']' t.data⟩,
    ⟨"parentheses", 5, false, fun t => scanBracket '(' ')' t.data⟩,
    ⟨"plain_number", 10, true, fun t => scanPlain false t.data⟩ ]

/-- Python `set.update` on a set represented as a duplicate-free list in
first-insertion order. -/
def addNewIds (acc : List ℕ) (ids : List ℕ) : List ℕ :=
  ids.foldl (fun a i => if i ∈ a then a else a ++ [i]) acc

/-- One step of the pattern loop of `extract_work_item_ids`: the running
state is `(all_ids, confidence, patterns_matched)`; a pattern with a
non-empty extraction contributes its ids and raises the confidence
(`1 - priority*0.1` for explicit patterns, `0.5` for patterns requiring
validation). -/
def extractStep (text : String) (st : List ℕ × ℚ × ℕ) (p : MatchingPattern) :
    List ℕ × ℚ × ℕ :=
  let ids := p.extract text
  if ids = [] then st
  else
    (addNewIds st.1 ids,
     (if p.requiresValidation then max st.2.1 (1/2)
      else max st.2.1 (1 - (p.priority : ℚ) / 10)),
     st.2.2 + 1)

/-- `MatchingService.extract_work_item_ids`: empty text yields no ids and
confidence 0; a final bonus of `0.1` (capped at 1) applies when more than
one pattern matched. -/
def extractWorkItemIds (patterns : List MatchingPattern) (text : String) :
    List ℕ × ℚ :=
  if text = "" then ([], 0)
  else
    let st := patterns.foldl (extractStep text) ([], 0, 0)
    (st.1, if 1 < st.2.2 then min 1 (st.2.1 + 1/10) else st.2.1)

/-- `MatchingStrategy` from `matching_service.py`. -/
inductive MatchingStrategy
  | strict
  | fuzzy
  | hybrid
deriving DecidableEq, Repr

/-- `MatchingResult` from `matching_service.py`. -/
structure MatchingResult where
  timeEntry : TimeEntry
  matchedWorkItems : List WorkItem
  confidence : ℚ
  strategyUsed : String
deriving DecidableEq, Repr

/-- Python's substring test `needle in hay`. -/
def startsWithChars : List Char → List Char → Bool
  | [], _ => true
  | _ :: _, [] => false
  | a :: as, b :: bs => a = b && startsWithChars as bs

/-- Substring containment on character lists. -/
def containsChars (needle : List Char) : List Char → Bool
  | [] => startsWithChars needle []
  | c :: t => startsWithChars needle (c :: t) || containsChars needle t

/-- Python `str.lower()` (ASCII). -/
def lowerStr (s : String) : String := ⟨s.data.map Char.toLower⟩

/-- The fuzzy score of `_fuzzy_match_work_item` for lower-cased description
`dl` and title `tl`: the `SequenceMatcher` ratio `r dl tl`, raised to at
least `0.8` when one string contains the other. -/
def fuzzyScore (r : String → String → ℚ) (dl tl : String) : ℚ :=
  if containsChars tl.data dl.data || containsChars dl.data tl.data then
    max (r dl tl) (8/10)
  else r dl tl

/-- The per-candidate step of `_fuzzy_match_work_item`: completed items
are skipped; an item is kept when its score strictly beats the best so
far and reaches the `0.7` threshold. -/
def fuzzyStep (r : String → String → ℚ) (dl : String)
    (st : Option WorkItem × ℚ) (p : ℕ × WorkItem) : Option WorkItem × ℚ :=
  if p.2.isCompleted then st
  else
    let score := fuzzyScore r dl (lowerStr p.2.title)
    if st.2 < score ∧ 7/10 ≤ score then (some p.2, score) else st

/-- `MatchingService._fuzzy_match_work_item`: entries without a
description match nothing; otherwise fold over the candidate work items
in dictionary order.  `r` abstracts
`difflib.SequenceMatcher(None, a, b).ratio()`. -/
def fuzzyMatchWorkItem (r : String → String → ℚ) (e : TimeEntry)
    (items : List (ℕ × WorkItem)) : Option WorkItem :=
  match e.description with
  | none => none
  | some d =>
    if d = "" then none
    else (items.foldl (fuzzyStep r (lowerStr d)) (none, 0)).1

/-- Lookup in the `work_items` dictionary (association list keyed by id). -/
def lookupItem (items : List (ℕ × WorkItem)) (k : ℕ) : Option WorkItem :=
  (items.find? (fun p => p.1 = k)).map Prod.snd

/-- The work items matched by the strict (pattern extraction) path for one
entry. -/
def strictMatched (patterns : List MatchingPattern)
    (items : List (ℕ × WorkItem)) (e : TimeEntry) : List WorkItem :=
  (extractWorkItemIds patterns (e.description.getD "")).1.filterMap (lookupItem items)

/-- The processing of one entry inside
`MatchingService.match_time_entries_to_work_items`: strict extraction, the
fuzzy fallback when nothing matched and the strategy allows it, the
mutation of the entry via `set_extracted_work_items`, and the result
record with its `strategy_used` label. -/
def matchEntry (r : String → String → ℚ) (patterns : List MatchingPattern)
    (strat : MatchingStrategy) (items : List (ℕ × WorkItem)) (e : TimeEntry) :
    MatchingResult :=
  let ext := extractWorkItemIds patterns (e.description.getD "")
  let matched0 := ext.1.filterMap (lookupItem items)
  let mc :=
    if matched0 = [] ∧
        (strat = MatchingStrategy.fuzzy ∨ strat = MatchingStrategy.hybrid) then
      match fuzzyMatchWorkItem r e items with
      | some w => (matched0 ++ [w], (3 : ℚ)/5)
      | none => (matched0, ext.2)
    else (matched0, ext.2)
  { timeEntry := setExtractedWorkItems e (mc.1.map WorkItem.id) mc.2
    matchedWorkItems := mc.1
    confidence := mc.2
    strategyUsed := if 7/10 < mc.2 then "strict" else "fuzzy" }

/-- `MatchingService.match_time_entries_to_work_items`; the `timeEntry`
field of each result is the same (mutated) entry object the caller's list
holds afterwards. -/
def matchTimeEntriesToWorkItems (r : String → String → ℚ)
    (patterns : List MatchingPattern) (strat : MatchingStrategy)
    (entries : List TimeEntry) (items : List (ℕ × WorkItem)) :
    List MatchingResult :=
  entries.map (matchEntry r patterns strat items)

/-- Equality of all `TimeEntry` fields except the two domain fields the
matcher writes (`_extracted_work_item_ids`, `_confidence_score`). -/
def sameCore (e f : TimeEntry) : Prop :=
  f.id = e.id ∧ f.userId = e.userId ∧ f.userName = e.userName ∧
  f.description = e.description ∧ f.startTime = e.startTime ∧
  f.endTime = e.endTime ∧ f.durationSeconds = e.durationSeconds ∧
  f.billable = e.billable ∧ f.projectId = e.projectId ∧
  f.projectName = e.projectName ∧ f.tags = e.tags ∧
  f.workspaceId = e.workspaceId

theorem fuzzyFold_invariant (r : String → String → ℚ) (dl : String) :
    ∀ (items : List (ℕ × WorkItem)) (st : Option WorkItem × ℚ),
      (∀ w, st.1 = some w → w.isCompleted = false ∧ 7/10 ≤ st.2 ∧
        fuzzyScore r dl (lowerStr w.title) = st.2) →
      ∀ w, (items.foldl (fuzzyStep r dl) st).1 = some w →
        w.isCompleted = false ∧ 7/10 ≤ (items.foldl (fuzzyStep r dl) st).2 ∧
        fuzzyScore r dl (lowerStr w.title) = (items.foldl (fuzzyStep r dl) st).2
  | [], st, hst => hst
  | p :: items, st, hst => by
    intro w hw
    rw [List.foldl_cons] at hw ⊢
    refine fuzzyFold_invariant r dl items (fuzzyStep r dl st p) ?_ w hw
    intro w' hw'
    unfold fuzzyStep at hw' ⊢
    by_cases hc : p.2.isCompleted
    · rw [if_pos hc] at hw' ⊢
      exact hst w' hw'
    · rw [if_neg hc] at hw' ⊢
      by_cases hcond : st.2 < fuzzyScore r dl (lowerStr p.2.title) ∧
          7/10 ≤ fuzzyScore r dl (lowerStr p.2.title)
      · rw [if_pos hcond] at hw' ⊢
        injection hw' with hw''
        subst hw''
        exact ⟨Bool.eq_false_iff.mpr hc, hcond.2, rfl⟩
      · rw [if_neg hcond] at hw' ⊢
        exact hst w' hw'

theorem pattern_extract_range (p : MatchingPattern) (text : String) :
    ∀ n ∈ p.extract text, 1 ≤ n ∧ n ≤ 999999 := by
  intro n hn
  rcases List.mem_filter.mp hn with ⟨_, hcond⟩
  simpa using hcond

theorem addNewIds_mem :
    ∀ (ids acc : List ℕ) (n : ℕ), n ∈ addNewIds acc ids → n ∈ acc ∨ n ∈ ids
  | [], acc, n => fun h => Or.inl h
  | i :: ids, acc, n => by
    intro h
    unfold addNewIds at h
    rw [List.foldl_cons] at h
    rcases addNewIds_mem ids _ n h with h' | h'
    · by_cases hmem : i ∈ acc
      · rw [if_pos hmem] at h'
        exact Or.inl h'
      · rw [if_neg hmem] at h'
        rcases List.mem_append.mp h' with h'' | h''
        · exact Or.inl h''
        · exact Or.inr (List.mem_cons.mpr (Or.inl (List.mem_singleton.mp h'')))
    · exact Or.inr (List.mem_cons_of_mem i h')

theorem extractFold_range (text : String) :
    ∀ (ps : List MatchingPattern) (st : List ℕ × ℚ × ℕ),
      (∀ n ∈ st.1, 1 ≤ n ∧ n ≤ 999999) →
      ∀ n ∈ (ps.foldl (extractStep text) st).1, 1 ≤ n ∧ n ≤ 999999
  | [], _, hst => hst
  | p :: ps, st, hst => by
    rw [List.foldl_cons]
    refine extractFold_range text ps (extractStep text st p) ?_
    intro n hn
    unfold extractStep at hn
    by_cases hids : p.extract text = []
    · rw [if_pos hids] at hn
      exact hst n hn
    · rw [if_neg hids] at hn
      rcases addNewIds_mem (p.extract text) st.1 n hn with h | h
      · exact hst n h
      · exact pattern_extract_range p text n h

theorem extractWorkItemIds_range (patterns : List MatchingPattern) (text : String) :
    ∀ n ∈ (extractWorkItemIds patterns text).1, 1 ≤ n ∧ n ≤ 999999 := by
  unfold extractWorkItemIds
  by_cases h : text = ""
  · rw [if_pos h]
    intro n hn
    simp at hn
  · rw [if_neg h]
    exact fun n hn =>
      extractFold_range text patterns ([], 0, 0) (by intro m hm; simp at hm) n hn

theorem extract_hash0001 : extractWorkItemIds defaultPatterns "#0001" = ([1], 1) := by
  simp +decide [extractWorkItemIds, defaultPatterns, MatchingPattern.extract, extractStep,
    scanMarker, scanBracket, scanPlain, dropTagCI, spanDigits, spanKey, lowEq,
    isWordChar, digitsToNat, addNewIds]
  norm_num

theorem extract_hash123 : extractWorkItemIds defaultPatterns "#123" = ([], 0) := by
  simp +decide [extractWorkItemIds, defaultPatterns, MatchingPattern.extract, extractStep,
    scanMarker, scanBracket, scanPlain, dropTagCI, spanDigits, spanKey, lowEq,
    isWordChar, digitsToNat, addNewIds]

theorem calcClusters_collision (b : ℚ → Bool) :
    calculateClusters cfgDefault b
      [⟨"s1", "a_r", "x", 3600, "m"⟩, ⟨"s2", "a", "r_x", 3600, "m"⟩] =
      [⟨"a", "r_x", 3600, 3600,
        [⟨"s2", "a", "r_x", 3600, "m"⟩, ⟨"s1", "a_r", "x", 3600, "m"⟩], 0⟩] := by
  simp +decide [calculateClusters, cfgDefault, rawClusters, rowsOf, sortCommits, chunkBy,
    spanKey, annotateChunk, annotateFrom, gidKeys, globalClusterId, buildCluster,
    mergeCloseClusters, sortClusters, mergeGroup, mergePass, authorRepo,
    List.insertionSort, List.orderedInsert, commitLe, commitKey, clusterLe, clusterKey,
    clusterGroupKey, Prod.Lex.le_iff]

theorem calcClusters_single (b : ℚ → Bool) :
    calculateClusters cfgDefault b [⟨"s1", "a", "r", 3600, "m"⟩] =
      [⟨"a", "r", 3600, 4500, [⟨"s1", "a", "r", 3600, "m"⟩], 1/4⟩] := by
  simp +decide [calculateClusters, cfgDefault, rawClusters, rowsOf, sortCommits, chunkBy,
    spanKey, annotateChunk, annotateFrom, gidKeys, globalClusterId, buildCluster,
    mergeCloseClusters, sortClusters, mergeGroup, mergePass, authorRepo,
    List.insertionSort, List.orderedInsert, commitLe, commitKey, clusterLe, clusterKey,
    clusterGroupKey, Prod.Lex.le_iff]
  norm_num

/-- C1: the spec claims the description passed to the external record
create/update calls is the session's `description` property,
`"{scope}: {event_count} commits ({start:HH:MM}–{end:HH:MM})"`.  The
`description` property does have exactly that format, but
`_create_or_update_cluster_entry` reads `cluster.detailed_description`,
an attribute `CommitCluster` does not expose, so the attribute access
yields no value (an `AttributeError`, caught by the broad handler, so the
external call is never made with the specified description). -/
theorem c1_description_attribute_missing :
    (∀ c : CommitCluster, trackerEntryDescription c = none) ∧
    trackerDescriptionAttr ∉ commitClusterAttrs ∧
    CommitCluster.description
      ⟨"a", "work-hours", 36000, 37800,
        [⟨"s", "a", "work-hours", 36000, "m"⟩,
         ⟨"t", "a", "work-hours", 37800, "m"⟩], 1/2⟩ =
      "work-hours: 2 commits (10:00–10:30)" := by
  refine ⟨fun c => rfl, by decide, ?_⟩
  unfold CommitCluster.description fmtHM pad2 CommitCluster.commitCount
  norm_num
  decide

/-- C2: reconciliation is idempotent at the event level: a commit whose
`sha` is already in `seen_commits` is dropped before clustering (it ends
up in no session and its processing step leaves `seen_commits` exactly as
it was), and every accepted commit's `sha` is in the `seen_commits` set
that exists when clustering runs. -/
theorem c2_reconciliation_idempotent (cfg : CalcConfig) (b : ℚ → Bool)
    (cs : List Commit) (seen : Finset String) (c : Commit) (hc : c.sha ∈ seen) :
    (∀ cl ∈ (processCommitsToClusters cfg b cs seen).1,
      ∀ x ∈ cl.commits, x.sha ∉ seen) ∧
    filterNewCommits (c :: cs) seen = filterNewCommits cs seen ∧
    (∀ x ∈ (filterNewCommits cs seen).1, x.sha ∈ (filterNewCommits cs seen).2) := by
  refine ⟨?_, filterNewCommits_dup_step c cs seen hc, ?_⟩
  · intro cl hcl x hx
    simp only [processCommitsToClusters] at hcl
    have hxflat : x ∈ flatCommits (calculateClusters cfg b (filterNewCommits cs seen).1) := by
      unfold flatCommits
      exact List.mem_flatten.mpr ⟨cl.commits, List.mem_map_of_mem _ hcl, hx⟩
    have hxin : x ∈ (filterNewCommits cs seen).1 :=
      (calculateClusters_perm cfg b _).mem_iff.mp hxflat
    exact (filterNewCommits_accepted cs seen x hxin).1
  · exact fun x hx => (filterNewCommits_accepted cs seen x hx).2

/-- C2 witness: processing the already-seen commit `"x"` leaves the
deduplication state exactly as if the commit had not been present. -/
theorem c2_reconciliation_idempotent_witness :
    filterNewCommits [⟨"x", "a", "r", 0, "m"⟩] {"x"} =
      filterNewCommits [] {"x"} :=
  (c2_reconciliation_idempotent cfgDefault (fun _ => false) [] {"x"}
    ⟨"x", "a", "r", 0, "m"⟩ (by simp)).2.1

/-- C3 counterexample: the claim `0 < duration` fails.  Two commits with
the identical timestamp, one by author `a_r` in repo `x` and one by
author `a` in repo `r_x`, collide on the string `global_cluster_id`
`"a_r_x_0"`; they form one two-commit session with `start = end`, whose
duration is `min(0, max_session_hours) = 0`.  This holds for every
boundary decision that agrees with the `exp(-gap/tau) < threshold`
formula (here none of the decisions is even consulted, both partitions
being singletons). -/
theorem c3_duration_counterexample :
    ¬ (∀ b : ℚ → Bool, boundaryMatches (5/2) (1/10) b →
        ∀ cs : List Commit, ∀ cl ∈ calculateClusters cfgDefault b cs,
          0 < cl.duration_hours) := by
  intro h
  have hbm : boundaryMatches (5/2) (1/10)
      (fun g => @decide (isBoundaryGap (5/2) (1/10) g) (Classical.propDecidable _)) :=
    fun g => @decide_eq_true_iff _ (Classical.propDecidable _)
  have hmem :
      (⟨"a", "r_x", 3600, 3600,
        [⟨"s2", "a", "r_x", 3600, "m"⟩, ⟨"s1", "a_r", "x", 3600, "m"⟩], 0⟩ : CommitCluster) ∈
      calculateClusters cfgDefault
        (fun g => @decide (isBoundaryGap (5/2) (1/10) g) (Classical.propDecidable _))
        [⟨"s1", "a_r", "x", 3600, "m"⟩, ⟨"s2", "a", "r_x", 3600, "m"⟩] := by
    rw [calcClusters_collision]
    exact List.mem_singleton_self _
  have hpos := h _ hbm [⟨"s1", "a_r", "x", 3600, "m"⟩, ⟨"s2", "a", "r_x", 3600, "m"⟩]
    ⟨"a", "r_x", 3600, 3600,
      [⟨"s2", "a", "r_x", 3600, "m"⟩, ⟨"s1", "a_r", "x", 3600, "m"⟩], 0⟩ hmem
  exact absurd hpos (by norm_num)

/-- C3 (amended): for every input and every boundary decision function,
when `max_session_hours` is positive every session produced by the
clusterer followed by the merger has `0 ≤ duration ≤ max_session_hours`
(duration `0` occurs exactly in the degenerate equal-timestamp case of
the counterexample; the strict lower bound of the original claim does not
hold). -/
theorem c3_duration_bounds (cfg : CalcConfig) (b : ℚ → Bool) (cs : List Commit)
    (hmax : 0 < cfg.maxSessionHours) :
    ∀ cl ∈ calculateClusters cfg b cs,
      0 ≤ cl.duration_hours ∧ cl.duration_hours ≤ cfg.maxSessionHours := by
  intro cl hcl
  unfold calculateClusters at hcl
  by_cases h : cs = []
  · rw [if_pos h] at hcl
    simp at hcl
  · rw [if_neg h] at hcl
    have hinv := mergeCloseClusters_inv cfg _ hmax (rawClusters_inv cfg b cs hmax) cl hcl
    exact ⟨hinv.2.1, hinv.2.2⟩

/-- C3 witness: the single-commit session of a one-commit input has
duration `1/4`, which lies in `[0, 4]`. -/
theorem c3_duration_bounds_witness :
    0 ≤ (⟨"a", "r", 3600, 4500, [⟨"s1", "a", "r", 3600, "m"⟩], 1/4⟩ :
        CommitCluster).duration_hours ∧
    (⟨"a", "r", 3600, 4500, [⟨"s1", "a", "r", 3600, "m"⟩], 1/4⟩ :
        CommitCluster).duration_hours ≤ cfgDefault.maxSessionHours := by
  refine c3_duration_bounds cfgDefault (fun _ => false)
    [⟨"s1", "a", "r", 3600, "m"⟩] (by norm_num [cfgDefault]) _ ?_
  rw [calcClusters_single]
  exact List.mem_singleton_self _

/-- C4: within a sorted `(author, repo)` partition `c :: cs`, the boundary
flag of event `i+1` holds exactly when `exp(-gap/tau) < threshold` for
the gap in hours to the previous event; the first event of the partition
(weight `1.0`) is never a boundary; and an event with the same timestamp
as its predecessor (gap `0`, weight `1.0`) gets the same `cluster_id`, so
equal-timestamp events are never separated.  (`threshold ≤ 1`, as in the
documented range `(0, 1)` of `cluster_threshold`.) -/
theorem c4_boundary_formula (tau θ : ℚ) (b : ℚ → Bool)
    (hb : boundaryMatches tau θ b) (hθ : θ ≤ 1) (c : Commit) (cs : List Commit) :
    (∀ i : ℕ, i < cs.length →
      (((annotateChunk θ b (c :: cs)).getD (i + 1) default).isNewCluster = true ↔
        isBoundaryGap tau θ
          (((cs.getD i default).ts - ((c :: cs).getD i default).ts) / 3600))) ∧
    ((annotateChunk θ b (c :: cs)).getD 0 default).isNewCluster = false ∧
    (∀ i : ℕ, i < cs.length →
      (cs.getD i default).ts = ((c :: cs).getD i default).ts →
      ((annotateChunk θ b (c :: cs)).getD (i + 1) default).clusterId =
        ((annotateChunk θ b (c :: cs)).getD i default).clusterId) := by
  refine ⟨?_, ?_, ?_⟩
  · intro i hi
    rw [annotateChunk_getD_flag_succ θ b c cs i hi]
    exact hb _
  · rw [annotateChunk_getD_flag_zero]
    exact decide_eq_false (not_lt.mpr hθ)
  · intro i hi hts
    have hgap : ((cs.getD i default).ts - ((c :: cs).getD i default).ts) / 3600 = 0 := by
      rw [hts]
      ring
    have hnb : ¬ isBoundaryGap tau θ 0 := by
      unfold isBoundaryGap
      rw [Rat.cast_zero, zero_div, neg_zero, Real.exp_zero]
      exact not_lt.mpr (by exact_mod_cast hθ)
    have hb0 : b 0 = false := by
      cases hb0 : b 0 with
      | false => rfl
      | true => exact absurd ((hb 0).mp hb0) hnb
    have hflag : ((annotateChunk θ b (c :: cs)).getD (i + 1) default).isNewCluster = false := by
      rw [annotateChunk_getD_flag_succ θ b c cs i hi, hgap, hb0]
    rw [annotateChunk_getD_cid_succ θ b c cs i hi, hflag]
    simp

/-- C4 witness: with `tau = 1`, `threshold = 1` and the decision function
`g > 0` (which agrees with `exp(-g/1) < 1` for every rational gap), two
commits at the identical timestamp receive the same `cluster_id`. -/
theorem c4_boundary_formula_witness :
    ((annotateChunk 1 (fun g => decide (0 < g))
      [⟨"s1", "a", "r", 3600, "m"⟩, ⟨"s2", "a", "r", 3600, "m"⟩]).getD 1 default).clusterId =
    ((annotateChunk 1 (fun g => decide (0 < g))
      [⟨"s1", "a", "r", 3600, "m"⟩, ⟨"s2", "a", "r", 3600, "m"⟩]).getD 0 default).clusterId := by
  have hb : boundaryMatches 1 1 (fun g => decide (0 < g)) := by
    intro g
    rw [decide_eq_true_iff]
    unfold isBoundaryGap
    rw [Rat.cast_one, div_one, Real.exp_lt_one_iff, neg_lt_zero]
    exact Rat.cast_pos.symm
  exact (c4_boundary_formula 1 1 (fun g => decide (0 < g)) hb (le_refl 1)
    ⟨"s1", "a", "r", 3600, "m"⟩ [⟨"s2", "a", "r", 3600, "m"⟩]).2.2 0 (by norm_num) rfl

/-- C5: `_merge_close_clusters` coincides, on every input, with the
spec's description of the merger (sort by `(actor, scope, start)`, group
by `(actor, scope)`, single left-to-right pass merging whenever the gap
in minutes is at most `min_gap_minutes`, with the merged duration
`min((next.end − current.start)/3600, max_session_hours)`), and it is the
identity whenever `min_gap_minutes ≤ 0`. -/
theorem c5_merger_refines_spec (cfg : CalcConfig) (cls : List CommitCluster) :
    mergeCloseClusters cfg cls = mergeSpecModel cfg cls ∧
    (cfg.minClusterGapMinutes ≤ 0 → mergeCloseClusters cfg cls = cls) := by
  constructor
  · unfold mergeCloseClusters mergeSpecModel
    by_cases hg : cfg.minClusterGapMinutes ≤ 0
    · rw [if_pos (Or.inr hg), if_pos hg]
    · rw [if_neg hg]
      by_cases hnil : cls = []
      · rw [if_pos (Or.inl hnil)]
        subst hnil
        simp [sortClusters, List.insertionSort, chunkBy]
      · rw [if_neg (by tauto)]
        congr 1
        apply List.map_congr_left
        intro g _
        match g with
        | [] => rfl
        | [c] => rfl
        | c :: c₂ :: rest =>
          exact mergePass_eq_specMergeWalk cfg.maxSessionHours
            cfg.minClusterGapMinutes (c₂ :: rest) c
  · intro hle
    unfold mergeCloseClusters
    rw [if_pos (Or.inr hle)]

/-- C5 witness: with `min_gap_minutes = 0` the merger returns its input
unchanged. -/
theorem c5_merger_refines_spec_witness :
    mergeCloseClusters ⟨5/2, 1/10, 4, 0⟩
      [⟨"a", "r", 0, 10, [], 1⟩] = [⟨"a", "r", 0, 10, [], 1⟩] :=
  (c5_merger_refines_spec ⟨5/2, 1/10, 4, 0⟩ [⟨"a", "r", 0, 10, [], 1⟩]).2 (by norm_num)

/-- C6: partition completeness: the concatenation of `member_events`
over all sessions output by the clusterer followed by the merger is a
permutation of (i.e. equal as a multiset to) the input commit list - no
commit is dropped or duplicated - and empty input yields empty output. -/
theorem c6_partition_completeness (cfg : CalcConfig) (b : ℚ → Bool)
    (cs : List Commit) :
    List.Perm (flatCommits (calculateClusters cfg b cs)) cs ∧
    calculateClusters cfg b [] = [] :=
  ⟨calculateClusters_perm cfg b cs, rfl⟩

/-- C7: the claim says constructing the calculator with non-positive
`tau_hours` fails fast; the constructor stores `tau_hours` without any
validation, so construction succeeds for every `tau_hours` - including
`0` and negative values. -/
theorem c7_tau_not_validated :
    ∀ tau : ℚ, workedHoursCalculatorInit true tau (1/10) 4 30 =
      Except.ok ⟨tau, 1/10, 4, 30⟩ :=
  fun _ => rfl

/-- C8 counterexample: the matcher is not read-only on its input time
entries.  An entry with no description and previously extracted work item
ids has its `_extracted_work_item_ids` reset to `[]` (and its confidence
to `0`) by `set_extracted_work_items`, so the entry list after the call
differs from the input. -/
theorem c8_matcher_mutates_counterexample :
    (matchTimeEntriesToWorkItems (fun _ _ => 0) defaultPatterns
        MatchingStrategy.hybrid
        [⟨"e0", "u", "un", none, 0, 3600, 3600, true, none, none, [], none,
          [42], 9/10⟩] []).map MatchingResult.timeEntry ≠
      [⟨"e0", "u", "un", none, 0, 3600, 3600, true, none, none, [], none,
        [42], 9/10⟩] := by
  decide

/-- C8 (amended): the matcher mutates each input entry only through
`set_extracted_work_items`: the two domain fields
`_extracted_work_item_ids` and `_confidence_score` may change, and every
other field of every input time entry is unchanged (the original claim's
"every field" is false by the counterexample). -/
theorem c8_matcher_core_fields_preserved (r : String → String → ℚ)
    (patterns : List MatchingPattern) (strat : MatchingStrategy)
    (entries : List TimeEntry) (items : List (ℕ × WorkItem)) :
    List.Forall₂ sameCore entries
      ((matchTimeEntriesToWorkItems r patterns strat entries items).map
        MatchingResult.timeEntry) := by
  unfold matchTimeEntriesToWorkItems
  rw [List.map_map]
  induction entries with
  | nil => exact List.Forall₂.nil
  | cons e es ih =>
    rw [List.map_cons]
    refine List.Forall₂.cons ?_ ih
    exact ⟨rfl, rfl, rfl, rfl, rfl, rfl, rfl, rfl, rfl, rfl, rfl, rfl⟩

/-- C9: when the strict path matched nothing, the strategy allows fuzzy
matching and the fuzzy fallback returns a work item, then that item is
not completed, its fuzzy score (substring containment counting as `0.8`)
reaches the `0.7` threshold, and the produced result carries exactly that
item with confidence `0.6` and strategy label `"fuzzy"`. -/
theorem c9_fuzzy_fallback (r : String → String → ℚ)
    (patterns : List MatchingPattern) (strat : MatchingStrategy)
    (items : List (ℕ × WorkItem)) (e : TimeEntry) (w : WorkItem)
    (hstrict : strictMatched patterns items e = [])
    (hstrat : strat = MatchingStrategy.fuzzy ∨ strat = MatchingStrategy.hybrid)
    (hw : fuzzyMatchWorkItem r e items = some w) :
    w.isCompleted = false ∧
    (∃ d, e.description = some d ∧
      7/10 ≤ fuzzyScore r (lowerStr d) (lowerStr w.title)) ∧
    (matchEntry r patterns strat items e).matchedWorkItems = [w] ∧
    (matchEntry r patterns strat items e).confidence = 3/5 ∧
    (matchEntry r patterns strat items e).strategyUsed = "fuzzy" := by
  have hA : w.isCompleted = false ∧
      ∃ d, e.description = some d ∧
        7/10 ≤ fuzzyScore r (lowerStr d) (lowerStr w.title) := by
    unfold fuzzyMatchWorkItem at hw
    cases hdesc : e.description with
    | none =>
      rw [hdesc] at hw
      exact absurd hw (by simp)
    | some d =>
      rw [hdesc] at hw
      dsimp only at hw
      by_cases hde : d = ""
      · rw [if_pos hde] at hw
        exact absurd hw (by simp)
      · rw [if_neg hde] at hw
        have hinv := fuzzyFold_invariant r (lowerStr d) items (none, 0)
          (by intro w' hw'; simp at hw') w hw
        refine ⟨hinv.1, d, rfl, ?_⟩
        rw [hinv.2.2]
        exact hinv.2.1
  refine ⟨hA.1, hA.2, ?_⟩
  have hstrict' : (extractWorkItemIds patterns (e.description.getD "")).1.filterMap
      (lookupItem items) = [] := hstrict
  rcases hstrat with rfl | rfl <;>
    simp only [matchEntry, hstrict', hw, List.nil_append] <;>
    norm_num

/-- A time entry and a work item exercising the fuzzy fallback: the
description `"abc"` contains no work item reference, and the ratio
function is constantly `1`. -/
def entryAbc : TimeEntry :=
  ⟨"e1", "u", "un", some "abc", 0, 3600, 3600, true, none, none, [], none, [], 0⟩

/-- An open candidate work item for the fuzzy fallback witness. -/
def itemZZ : WorkItem := ⟨1234, "zz", WorkItemState.active⟩

/-- C9 witness: on the concrete entry `"abc"` with a single open
candidate, the fuzzy fallback fires and the result has confidence `0.6`
and label `"fuzzy"`. -/
theorem c9_fuzzy_fallback_witness :
    itemZZ.isCompleted = false ∧
    (matchEntry (fun _ _ => 1) defaultPatterns MatchingStrategy.hybrid
      [(1234, itemZZ)] entryAbc).confidence = 3/5 ∧
    (matchEntry (fun _ _ => 1) defaultPatterns MatchingStrategy.hybrid
      [(1234, itemZZ)] entryAbc).strategyUsed = "fuzzy" := by
  have hstrict : strictMatched defaultPatterns [(1234, itemZZ)] entryAbc = [] := by
    simp +decide [strictMatched, entryAbc, extractWorkItemIds, defaultPatterns,
      MatchingPattern.extract, extractStep, scanMarker, scanBracket, scanPlain,
      dropTagCI, spanDigits, spanKey, lowEq, isWordChar, digitsToNat, addNewIds]
  have hw : fuzzyMatchWorkItem (fun _ _ => 1) entryAbc [(1234, itemZZ)] =
      some itemZZ := by
    simp +decide [fuzzyMatchWorkItem, entryAbc, itemZZ, fuzzyStep, fuzzyScore,
      lowerStr, containsChars, startsWithChars, WorkItem.isCompleted,
      WorkItemState.isCompleted]
    norm_num
  have h := c9_fuzzy_fallback (fun _ _ => 1) defaultPatterns
    MatchingStrategy.hybrid [(1234, itemZZ)] entryAbc itemZZ hstrict
    (Or.inr rfl) hw
  exact ⟨h.1, h.2.2.2.1, h.2.2.2.2⟩

/-- C10 counterexample: with the default patterns the input `"#0001"`
(four digits with leading zeros) extracts the work item id `1`, which
passes the `[1, 999999]` validation but lies below the claimed lower
bound `1000`. -/
theorem c10_small_id_counterexample :
    1 ∈ (extractWorkItemIds defaultPatterns "#0001").1 ∧ ¬ (1000 ≤ (1 : ℕ)) := by
  rw [extract_hash0001]
  exact ⟨List.mem_singleton_self 1, by norm_num⟩

/-- C10 (amended): with the default patterns every extracted work item id
lies in `[1, 999999]` (each pattern captures 4 to 6 digits, but leading
zeros allow values below `1000`), and an id written with fewer than four
digits, such as `"#123"`, is never extracted. -/
theorem c10_extracted_id_range :
    (∀ text : String, ∀ n ∈ (extractWorkItemIds defaultPatterns text).1,
      1 ≤ n ∧ n ≤ 999999) ∧
    (extractWorkItemIds defaultPatterns "#123").1 = [] := by
  refine ⟨fun text => extractWorkItemIds_range defaultPatterns text, ?_⟩
  rw [extract_hash123]

/-- C10 witness: the id `1` extracted from `"#0001"` satisfies the
amended range bounds. -/
theorem c10_extracted_id_range_witness :
    1 ∈ (extractWorkItemIds defaultPatterns "#0001").1 ∧
    1 ≤ (1 : ℕ) ∧ (1 : ℕ) ≤ 999999 := by
  have hmem : 1 ∈ (extractWorkItemIds defaultPatterns "#0001").1 := by
    rw [extract_hash0001]
    exact List.mem_singleton_self 1
  exact ⟨hmem, c10_extracted_id_range.1 "#0001" 1 hmem⟩

end WorkReports
